import Mathlib

/-!
# Dispense controller of the chuggernog firmware

A shallow embedding of `src/src/main.cpp` and `src/include/config.h`:
the HC-SR04 distance driver, the presence check, the pump relay, the
pour state machine and the two route handlers.

* `unsigned long` is 32 bits wide on the ESP32 target: the value of `millis()` is an
  input of every operation that reads it (a natural number, below `2 ^ 32` on the
  device) and the sum stored in `pourEndMs` is taken modulo `2 ^ 32`.
* `float` is IEEE 754 binary32 with round-to-nearest, ties-to-even.  A finite
  value is kept exactly as sign, integer significand and binary exponent;
  `none` stands for a non-finite result, or for a float-to-integer conversion
  whose value does not fit the target type (undefined in C).
-/

namespace Chuggernog

/-! ## config.h -/

def GLASS_PRESENT_CM : Int := 4
def GLASS_REMOVED_CM : Int := 8
def MAX_DISPENSE_ML : Int := 60

/-! ## binary32 arithmetic -/

/-- A finite binary32 value `(-1)^neg * mant * 2^exp`. -/
structure F32 where
  neg : Bool
  mant : Nat
  exp : Int
  deriving DecidableEq

/-- Nearest integer to `p / q`, ties to the even integer. -/
def roundNE (p q : Nat) : Nat :=
  let f := p / q
  let r := p % q
  if 2 * r < q then f
  else if q < 2 * r then f + 1
  else if f % 2 = 0 then f else f + 1

/-- Halving loop behind `floorLog2`; the first argument bounds the number of halvings. -/
def floorLog2Aux : Nat → Nat → Nat
  | 0, _ => 0
  | fuel + 1, n => if 2 ≤ n then floorLog2Aux fuel (n / 2) + 1 else 0

/-- Position of the leading one bit of `n` (floor of the binary logarithm; `0` for `n = 0`). -/
def floorLog2 (n : Nat) : Nat := floorLog2Aux n n

/-- Floor of the binary logarithm of `p / q`, for `0 < p` and `0 < q`. -/
def floorLog2Quot (p q : Nat) : Int :=
  if q * 2 ^ floorLog2 p ≤ p * 2 ^ floorLog2 q then (floorLog2 p : Int) - (floorLog2 q : Int)
  else (floorLog2 p : Int) - (floorLog2 q : Int) - 1

/-- Rounds the real number `(-1)^neg * (p / q) * 2^e` (with `0 < q`) to binary32:
24 significant bits, smallest unit `2^-149`, ties to even; `none` on overflow. -/
def F32.round (neg : Bool) (p q : Nat) (e : Int) : Option F32 :=
  if p = 0 then some ⟨neg, 0, 0⟩
  else
    let ulpExp : Int := max (floorLog2Quot p q + e - 23) (-149)
    let sh : Int := e - ulpExp
    let m : Nat :=
      if 0 ≤ sh then roundNE (p * 2 ^ sh.toNat) q else roundNE p (q * 2 ^ (-sh).toNat)
    if 104 < ulpExp ∨ (ulpExp = 104 ∧ 2 ^ 24 ≤ m) then none else some ⟨neg, m, ulpExp⟩

/-- Conversion of an integer to `float`. -/
def F32.ofInt (n : Int) : Option F32 :=
  F32.round (decide (n < 0)) n.natAbs 1 0

/-- Single-precision product `x * y`. -/
def F32.mul (x y : F32) : Option F32 :=
  F32.round (x.neg != y.neg) (x.mant * y.mant) 1 (x.exp + y.exp)

/-- Single-precision quotient `x / y`; a zero divisor gives a non-finite result. -/
def F32.div (x y : F32) : Option F32 :=
  if y.mant = 0 then none
  else F32.round (x.neg != y.neg) x.mant y.mant (x.exp - y.exp)

/-- Integral part of a finite value, rounding toward zero (the C conversion rule). -/
def F32.trunc (x : F32) : Int :=
  let a : Nat := if 0 ≤ x.exp then x.mant * 2 ^ x.exp.toNat else x.mant / 2 ^ (-x.exp).toNat
  if x.neg then -(a : Int) else (a : Int)

/-- The cast `(unsigned long)x` with a 32-bit `unsigned long`. -/
def F32.toULong (x : F32) : Option Nat :=
  if 0 ≤ x.trunc ∧ x.trunc < 2 ^ 32 then some x.trunc.toNat else none

/-- The cast `(int)x` with a 32-bit `int`. -/
def F32.toInt (x : F32) : Option Int :=
  if -(2 ^ 31) ≤ x.trunc ∧ x.trunc < 2 ^ 31 then some x.trunc else none

/-- The literal `10.0f` of `FLOW_RATE_ML_PER_S`. -/
def FLOW_RATE_ML_PER_S : F32 := ⟨false, 10, 0⟩

/-- The literal `1000.0f`. -/
def f1000 : F32 := ⟨false, 1000, 0⟩

/-- The literal `2.0f`. -/
def f2 : F32 := ⟨false, 2, 0⟩

/-- The literal `0.034f`: the binary32 value nearest to `34 / 1000`. -/
def f0_034 : F32 := ⟨false, 9126806, -28⟩

/-! ## main.cpp: state -/

inductive MachineState where
  | IDLE
  | POURING
  deriving DecidableEq

/-- The three static variables of `main.cpp` together with the level driven on
`PIN_PUMP` (`true` is `HIGH`, the relay is active high). -/
structure State where
  machineState : MachineState
  lastPourMl : Int
  pourEndMs : Nat
  pinPump : Bool
  deriving DecidableEq

/-- Static initialisers at power-on; the level of `PIN_PUMP` is not yet determined. -/
def powerOn (pinLevel : Bool) : State :=
  { machineState := MachineState.IDLE, lastPourMl := 0, pourEndMs := 0, pinPump := pinLevel }

/-! ## main.cpp: HC-SR04 ultrasonic distance sensor -/

/-- The function `readDistanceCm`, in terms of the value that `pulseIn(PIN_ECHO, HIGH, 30000)`
stores in `long duration` (microseconds, `0` when no echo arrived before the timeout). -/
def readDistanceCm (duration : Int) : Option Int :=
  if duration = 0 then some 999
  else do
    let d ← F32.ofInt duration
    let scaled ← F32.mul d f0_034
    let halved ← F32.div scaled f2
    halved.toInt

/-- The function `readGlassPresent`, in terms of the echo duration. -/
def readGlassPresent (duration : Int) : Option Bool := do
  let distance ← readDistanceCm duration
  pure (decide (distance < GLASS_PRESENT_CM))

/-! ## main.cpp: pump control via relay -/

def pumpOn (s : State) : State := { s with pinPump := true }

def pumpOff (s : State) : State := { s with pinPump := false }

/-! ## main.cpp: pour logic -/

/-- The expression `(unsigned long)((ml / FLOW_RATE_ML_PER_S) * 1000.0f)` of `startPour`. -/
def durationMs (ml : Int) : Option Nat := do
  let mlF ← F32.ofInt ml
  let seconds ← F32.div mlF FLOW_RATE_ML_PER_S
  let ms ← F32.mul seconds f1000
  ms.toULong

/-- The call `startPour(ml)` when `millis()` returns `millis`. -/
def startPour (s : State) (millis : Nat) (ml : Int) : Option State := do
  let d ← durationMs ml
  let s1 := { s with pourEndMs := (millis + d) % 2 ^ 32 }
  let s2 := { s1 with lastPourMl := ml }
  let s3 := { s2 with machineState := MachineState.POURING }
  pure (pumpOn s3)

def stopPour (s : State) : State :=
  { pumpOff s with machineState := MachineState.IDLE }

/-! ## main.cpp: route handlers -/

/-- The document `deserializeJson` produced: `amount_ml` is the value of that member
when it is present and holds an integer. -/
structure JsonDocument where
  amount_ml : Option Int
  deriving DecidableEq

/-- The expression `doc["amount_ml"] | dflt` at type `int`: the member when it is an
integer that fits a 32-bit `int`, the default otherwise. -/
def JsonDocument.amountOr (doc : JsonDocument) (dflt : Int) : Int :=
  match doc.amount_ml with
  | some v => if -(2 ^ 31) ≤ v ∧ v < 2 ^ 31 then v else dflt
  | none => dflt

/-- Payload of a `/dispense` reply: `{"ok":true}` or `{"error":msg}`. -/
inductive ReplyBody where
  | okTrue
  | error (msg : String)
  deriving DecidableEq

/-- What `request->send(code, "application/json", body)` sends. -/
structure Response where
  code : Nat
  body : ReplyBody
  deriving DecidableEq

/-- The JSON object `handleStatus` serialises. -/
structure StatusDoc where
  state : String
  glass_present : Bool
  uptime : Nat
  last_pour_ml : Int
  distance_cm : Int
  deriving DecidableEq

/-- The handler of `GET /status`, when `pulseIn` measures `duration` and `millis()` returns `millis`. -/
def handleStatus (s : State) (millis : Nat) (duration : Int) : Option (StatusDoc × State) := do
  let distanceCm ← readDistanceCm duration
  let doc : StatusDoc :=
    { state := if s.machineState = MachineState.POURING then "pouring" else "idle"
      glass_present := decide (distanceCm < GLASS_PRESENT_CM)
      uptime := millis / 1000
      last_pour_ml := s.lastPourMl
      distance_cm := distanceCm }
  pure (doc, s)

/-- The handler of `POST /dispense`; `body` is the outcome of `deserializeJson` on the request data
(`none` for a `DeserializationError`) and `millis` is what `millis()` returns. -/
def handleDispense (s : State) (millis : Nat) (body : Option JsonDocument) :
    Option (Response × State) :=
  if s.machineState = MachineState.POURING then
    some (⟨409, ReplyBody.error "Already pouring"⟩, s)
  else
    match body with
    | none => some (⟨400, ReplyBody.error "Invalid JSON"⟩, s)
    | some doc =>
      let amountMl := doc.amountOr 0
      if amountMl ≤ 0 ∨ amountMl > MAX_DISPENSE_ML then
        some (⟨400, ReplyBody.error "Invalid amount"⟩, s)
      else do
        let s1 ← startPour s millis amountMl
        pure (⟨200, ReplyBody.okTrue⟩, s1)

/-! ## main.cpp: setup and loop -/

/-- The part of `setup` that touches the state: `digitalWrite(PIN_PUMP, LOW)`. -/
def setup (s : State) : State := { s with pinPump := false }

/-- One pass of `loop` when `millis()` returns `millis`. -/
def loop (s : State) (millis : Nat) : State :=
  if s.machineState = MachineState.POURING ∧ millis ≥ s.pourEndMs then stopPour s else s

/-! ## Executions -/

/-- One operation the firmware performs after `setup`. -/
inductive Op where
  | dispense (millis : Nat) (body : Option JsonDocument)
  | status (millis : Nat) (duration : Int)
  | tick (millis : Nat)
  deriving DecidableEq

/-- State after one operation. -/
def step (s : State) : Op → Option State
  | Op.dispense millis body => (handleDispense s millis body).map Prod.snd
  | Op.status millis duration => (handleStatus s millis duration).map Prod.snd
  | Op.tick millis => some (loop s millis)

/-- State after a sequence of operations. -/
def run (s : State) : List Op → Option State
  | [] => some s
  | op :: rest => (step s op).bind fun s1 => run s1 rest

/-- States the firmware can be in after `setup` and any sequence of operations. -/
def Reachable (s : State) : Prop :=
  ∃ (pinLevel : Bool) (ops : List Op), run (setup (powerOn pinLevel)) ops = some s

/-- Whether operation `op`, performed in state `s`, is a dispense request answered 200. -/
def accepts (s : State) : Op → Bool
  | Op.dispense millis body =>
    match handleDispense s millis body with
    | some (r, _) => r.code == 200
    | none => false
  | Op.status _ _ => false
  | Op.tick _ => false

/-- No operation of the sequence, performed from state `s` on, is an accepted request. -/
def noneAccepted (s : State) : List Op → Bool
  | [] => true
  | op :: rest =>
    !accepts s op &&
      match step s op with
      | some s1 => noneAccepted s1 rest
      | none => true

/-! ## Invariants -/

/-- Relay level and machine state agree. -/
def PumpMatches (s : State) : Prop :=
  s.pinPump = true ↔ s.machineState = MachineState.POURING

/-- Bounds on the recorded volume. -/
def VolumeInRange (s : State) : Prop :=
  (0 ≤ s.lastPourMl ∧ s.lastPourMl ≤ MAX_DISPENSE_ML) ∧
    (s.machineState = MachineState.POURING → 0 < s.lastPourMl)

/-- Bounds on the recorded volume once a pour has been accepted. -/
def VolumeAccepted (s : State) : Prop :=
  0 < s.lastPourMl ∧ s.lastPourMl ≤ MAX_DISPENSE_ML

/-! ## Facts about the rounding primitives -/

theorem floorLog2Aux_spec (fuel n : Nat) (hn : n ≠ 0) (hf : n ≤ fuel) :
    2 ^ floorLog2Aux fuel n ≤ n ∧ n < 2 ^ (floorLog2Aux fuel n + 1) := by
  induction fuel generalizing n with
  | zero => omega
  | succ k ih =>
    unfold floorLog2Aux
    by_cases h2 : 2 ≤ n
    · have hrec := ih (n / 2) (by omega) (by omega)
      simp only [h2, if_true]
      constructor
      · rw [pow_succ]; omega
      · rw [pow_succ]; omega
    · have h1 : n = 1 := by omega
      subst h1
      simp

theorem floorLog2_spec (n : Nat) (hn : n ≠ 0) :
    2 ^ floorLog2 n ≤ n ∧ n < 2 ^ (floorLog2 n + 1) :=
  floorLog2Aux_spec n n hn (le_refl n)

theorem floorLog2_eq_of_bounds (n L : Nat) (hlo : 2 ^ L ≤ n) (hhi : n < 2 ^ (L + 1)) :
    floorLog2 n = L := by
  have hn : n ≠ 0 := by
    have : 0 < 2 ^ L := Nat.two_pow_pos L
    omega
  obtain ⟨h1, h2⟩ := floorLog2_spec n hn
  have a : floorLog2 n < L + 1 := (Nat.pow_lt_pow_iff_right (by norm_num)).1 (lt_of_le_of_lt h1 hhi)
  have b : L < floorLog2 n + 1 := (Nat.pow_lt_pow_iff_right (by norm_num)).1 (lt_of_le_of_lt hlo h2)
  omega


/-- The constant used for `0.034f` is the binary32 rounding of `34 / 1000`. -/
theorem f0_034_nearest : F32.round false 34 1000 0 = some f0_034 := by
  decide

theorem roundNE_one (p : Nat) : roundNE p 1 = p := by
  simp [roundNE, Nat.mod_one]

/-- Rounding `p * 2^e` for an integer `p` whose leading bit is bit `L`, away from the
underflow and overflow thresholds. -/
theorem F32.round_int (neg : Bool) (p L : Nat) (e : Int) (hlo : 2 ^ L ≤ p)
    (hhi : p < 2 ^ (L + 1)) (he : -126 ≤ (L : Int) + e) (he2 : (L : Int) + e ≤ 126) :
    F32.round neg p 1 e =
      some ⟨neg, if L ≤ 23 then p * 2 ^ (23 - L) else roundNE p (2 ^ (L - 23)),
        (L : Int) + e - 23⟩ := by
  have hp : p ≠ 0 := by
    have : 0 < 2 ^ L := Nat.two_pow_pos L
    omega
  have hfl : floorLog2 p = L := floorLog2_eq_of_bounds p L hlo hhi
  have h1 : floorLog2 1 = 0 := by decide
  have hmax : max ((L : Int) + e - 23) (-149) = (L : Int) + e - 23 := max_eq_left (by omega)
  have hsh : e - ((L : Int) + e - 23) = 23 - (L : Int) := by ring
  unfold F32.round floorLog2Quot
  simp only [hp, if_false, hfl, h1, pow_zero, mul_one, one_mul, hlo, if_true, Nat.cast_zero,
    sub_zero, hmax, hsh]
  have hov : ¬ (104 < (L : Int) + e - 23) := by omega
  have hov2 : ¬ ((L : Int) + e - 23 = 104) := by omega
  simp only [hov, hov2, false_and, or_self, if_false]
  by_cases hL : L ≤ 23
  · have h0 : (0 : Int) ≤ 23 - (L : Int) := by omega
    have ht : (23 - (L : Int)).toNat = 23 - L := by omega
    simp only [h0, if_true, hL, ht, roundNE_one]
  · have h0 : ¬ ((0 : Int) ≤ 23 - (L : Int)) := by omega
    have ht : (-(23 - (L : Int))).toNat = L - 23 := by omega
    simp only [h0, if_false, hL, ht]

theorem roundNE_two_mul (k : Nat) : roundNE (k * 2) 2 = k := by
  simp [roundNE]

/-- Halving a value whose significand has at most 24 bits is exact (away from underflow). -/
theorem F32.div_two (neg : Bool) (p L : Nat) (e : Int) (hlo : 2 ^ L ≤ p)
    (hhi : p < 2 ^ (L + 1)) (hL : L ≤ 23) (he : -125 ≤ (L : Int) + e)
    (he2 : (L : Int) + e ≤ 126) :
    F32.div ⟨neg, p, e⟩ f2 = some ⟨neg, p * 2 ^ (23 - L), (L : Int) + e - 24⟩ := by
  have hp : p ≠ 0 := by
    have : 0 < 2 ^ L := Nat.two_pow_pos L
    omega
  have hfl : floorLog2 p = L := floorLog2_eq_of_bounds p L hlo hhi
  have h2 : floorLog2 2 = 1 := by decide
  have hc : 2 * 2 ^ L ≤ p * 2 ^ 1 := by omega
  have hmax : max ((L : Int) - ((1 : Nat) : Int) + (e - 0) - 23) (-149) = (L : Int) + e - 24 := by
    rw [max_eq_left (by push_cast; omega)]; push_cast; ring
  have hsh : e - 0 - ((L : Int) + e - 24) = 24 - (L : Int) := by ring
  have h0 : (0 : Int) ≤ 24 - (L : Int) := by omega
  have ht : (24 - (L : Int)).toNat = (23 - L) + 1 := by omega
  have hov : ¬ (104 < (L : Int) + e - 24) := by omega
  have hov2 : ¬ ((L : Int) + e - 24 = 104) := by omega
  unfold F32.div F32.round floorLog2Quot f2
  simp only [hp, if_false, hfl, h2, hc, if_true, hmax, hsh, h0, ht, hov, hov2, false_and,
    or_self, Bool.bne_false, OfNat.ofNat_ne_zero]
  rw [pow_succ, ← mul_assoc, roundNE_two_mul]

/-- Multiplying a normalised significand by `0.034f`. -/
theorem F32.mul_f0_034 (a : Nat) (e : Int) (ha : 2 ^ 23 ≤ a) (ha2 : a < 2 ^ 24)
    (he : -100 ≤ e) (he2 : e ≤ 100) :
    F32.mul ⟨false, a, e⟩ f0_034 =
      if a * 9126806 < 2 ^ 47 then some ⟨false, roundNE (a * 9126806) (2 ^ 23), e - 5⟩
      else some ⟨false, roundNE (a * 9126806) (2 ^ 24), e - 4⟩ := by
  unfold F32.mul f0_034
  by_cases hP : a * 9126806 < 2 ^ 47
  · have h := F32.round_int false (a * 9126806) 46 (e + -28) (by omega) (by omega)
      (by push_cast; omega) (by push_cast; omega)
    simp only [hP, if_true]
    simp only [show ¬ (46 ≤ 23) by decide, if_false] at h
    rw [show (false != false) = false by decide, h]
    simp only [Option.some.injEq, F32.mk.injEq, true_and]
    push_cast; ring
  · have h := F32.round_int false (a * 9126806) 47 (e + -28) (by omega) (by omega)
      (by push_cast; omega) (by push_cast; omega)
    simp only [hP, if_false]
    simp only [show ¬ (47 ≤ 23) by decide, if_false] at h
    rw [show (false != false) = false by decide, h]
    simp only [Option.some.injEq, F32.mk.injEq, true_and]
    push_cast; ring

theorem roundNE_ge (p q : Nat) : p / q ≤ roundNE p q := by
  unfold roundNE
  simp only
  split
  · exact le_refl _
  · split
    · omega
    · split <;> omega

theorem roundNE_le (p q : Nat) (hq : 0 < q) : 2 * (roundNE p q * q) ≤ 2 * p + q := by
  have hdm : q * (p / q) + p % q = p := Nat.div_add_mod p q
  have hr : p % q < q := Nat.mod_lt p hq
  have hc : p / q * q = q * (p / q) := Nat.mul_comm _ _
  have hs : (p / q + 1) * q = q * (p / q) + q := by rw [Nat.add_mul, hc, Nat.one_mul]
  unfold roundNE
  simp only
  generalize q * (p / q) = t at *
  split
  · omega
  · split
    · omega
    · split <;> omega

/-- The cast to `int` of a non-negative value with a negative exponent. -/
theorem F32.toInt_shift (m k : Nat) (e : Int) (he : e = -(k : Int)) (hk : 0 < k)
    (hm : m / 2 ^ k < 2 ^ 31) :
    F32.toInt ⟨false, m, e⟩ = some ((m / 2 ^ k : Nat) : Int) := by
  subst he
  have h0 : ¬ ((0 : Int) ≤ -(k : Int)) := by omega
  have ht : (-(-(k : Int))).toNat = k := by omega
  have hlt : ((m / 2 ^ k : Nat) : Int) < 2 ^ 31 := by exact_mod_cast hm
  have hge : -(2 ^ 31 : Int) ≤ ((m / 2 ^ k : Nat) : Int) := by
    have : (0 : Int) ≤ ((m / 2 ^ k : Nat) : Int) := Int.ofNat_nonneg _
    omega
  unfold F32.toInt F32.trunc
  simp only [h0, if_false, ht, Bool.false_eq_true, hlt, hge, and_self, if_true]

/-- For an echo of `n` microseconds, `0 < n ≤ 30000`, the driver returns `⌊17 n / 1000⌋`. -/
theorem readDistanceCm_echo (n : Nat) (h0 : 0 < n) (h1 : n ≤ 30000) :
    readDistanceCm (n : Int) = some ((17 * n / 1000 : Nat) : Int) := by
  obtain ⟨hlo, hhi⟩ := floorLog2_spec n (by omega)
  have hL : floorLog2 n ≤ 14 := by
    by_contra hc
    have : 2 ^ 15 ≤ 2 ^ floorLog2 n := Nat.pow_le_pow_right (by norm_num) (by omega)
    omega
  generalize floorLog2 n = L at hlo hhi hL
  have s1 : F32.ofInt (n : Int) = some ⟨false, n * 2 ^ (23 - L), (L : Int) - 23⟩ := by
    have h := F32.round_int false n L 0 hlo hhi (by omega) (by omega)
    have hL23 : L ≤ 23 := by omega
    simp only [hL23, if_true, add_zero] at h
    unfold F32.ofInt
    simpa using h
  have ha : 2 ^ 23 ≤ n * 2 ^ (23 - L) ∧ n * 2 ^ (23 - L) < 2 ^ 24 := by
    interval_cases L <;> simp only [Nat.reducePow, Nat.reduceSub, Nat.reduceAdd] at * <;> omega
  have s2 := F32.mul_f0_034 (n * 2 ^ (23 - L)) ((L : Int) - 23) ha.1 ha.2 (by omega) (by omega)
  have hn : (n : Int) ≠ 0 := by omega
  unfold readDistanceCm
  simp only [hn, if_false, s1, Option.bind_eq_bind, Option.some_bind, s2]
  clear s1 s2
  by_cases hP : n * 2 ^ (23 - L) * 9126806 < 2 ^ 47
  · simp only [hP, if_true, Option.some_bind]
    have g1 := roundNE_ge (n * 2 ^ (23 - L) * 9126806) (2 ^ 23)
    have g2 := roundNE_le (n * 2 ^ (23 - L) * 9126806) (2 ^ 23) (by norm_num)
    generalize roundNE (n * 2 ^ (23 - L) * 9126806) (2 ^ 23) = m at g1 g2 ⊢
    have hm : 2 ^ 23 ≤ m ∧ m < 2 ^ (23 + 1) := by
      interval_cases L <;> simp only [Nat.reducePow, Nat.reduceSub, Nat.reduceAdd] at * <;> omega
    have e1 : -125 ≤ ((23 : Nat) : Int) + ((L : Int) - 23 - 5) := by push_cast; omega
    have e2 : ((23 : Nat) : Int) + ((L : Int) - 23 - 5) ≤ 126 := by push_cast; omega
    have hd := F32.div_two false m 23 ((L : Int) - 23 - 5) hm.1 hm.2 (le_refl 23) e1 e2
    have e3 : ((23 : Nat) : Int) + ((L : Int) - 23 - 5) - 24 = -((29 - L : Nat) : Int) := by
      push_cast; omega
    have hfin : m * 2 ^ (23 - 23) / 2 ^ (29 - L) = 17 * n / 1000 := by
      interval_cases L <;> simp only [Nat.reducePow, Nat.reduceSub, Nat.reduceAdd] at * <;> omega
    have ht := F32.toInt_shift (m * 2 ^ (23 - 23)) (29 - L) _ e3 (by omega)
      (by rw [hfin]; omega)
    rw [hd, Option.some_bind, ht, hfin]
  · simp only [hP, if_false, Option.some_bind]
    have g1 := roundNE_ge (n * 2 ^ (23 - L) * 9126806) (2 ^ 24)
    have g2 := roundNE_le (n * 2 ^ (23 - L) * 9126806) (2 ^ 24) (by norm_num)
    generalize roundNE (n * 2 ^ (23 - L) * 9126806) (2 ^ 24) = m at g1 g2 ⊢
    have hm : 2 ^ 23 ≤ m ∧ m < 2 ^ (23 + 1) := by
      interval_cases L <;> simp only [Nat.reducePow, Nat.reduceSub, Nat.reduceAdd] at * <;> omega
    have e1 : -125 ≤ ((23 : Nat) : Int) + ((L : Int) - 23 - 4) := by push_cast; omega
    have e2 : ((23 : Nat) : Int) + ((L : Int) - 23 - 4) ≤ 126 := by push_cast; omega
    have hd := F32.div_two false m 23 ((L : Int) - 23 - 4) hm.1 hm.2 (le_refl 23) e1 e2
    have e3 : ((23 : Nat) : Int) + ((L : Int) - 23 - 4) - 24 = -((28 - L : Nat) : Int) := by
      push_cast; omega
    have hfin : m * 2 ^ (23 - 23) / 2 ^ (28 - L) = 17 * n / 1000 := by
      interval_cases L <;> simp only [Nat.reducePow, Nat.reduceSub, Nat.reduceAdd] at * <;> omega
    have ht := F32.toInt_shift (m * 2 ^ (23 - 23)) (28 - L) _ e3 (by omega)
      (by rw [hfin]; omega)
    rw [hd, Option.some_bind, ht, hfin]

/-- The driver on every echo duration the 30 ms timeout admits. -/
theorem readDistanceCm_range (d : Int) (h0 : 0 ≤ d) (h1 : d ≤ 30000) :
    readDistanceCm d = some (if d = 0 then 999 else 17 * d / 1000) := by
  by_cases hd : d = 0
  · subst hd
    rfl
  · obtain ⟨n, rfl⟩ := Int.eq_ofNat_of_zero_le h0
    have h := readDistanceCm_echo n (by omega) (by omega)
    rw [h, if_neg hd]
    push_cast
    rfl

/-- The pump-on time of every volume the handler accepts is exactly `100 * ml`. -/
theorem durationMs_eq (ml : Int) (h0 : 0 < ml) (h1 : ml ≤ 60) :
    durationMs ml = some (100 * ml).toNat := by
  interval_cases ml <;> decide

/-- The four outcomes of `handleDispense`, with the started pour written out. -/
theorem handleDispense_eq (s : State) (millis : Nat) (body : Option JsonDocument) :
    handleDispense s millis body =
      if s.machineState = MachineState.POURING then
        some (⟨409, ReplyBody.error "Already pouring"⟩, s)
      else
        match body with
        | none => some (⟨400, ReplyBody.error "Invalid JSON"⟩, s)
        | some doc =>
          if doc.amountOr 0 ≤ 0 ∨ doc.amountOr 0 > MAX_DISPENSE_ML then
            some (⟨400, ReplyBody.error "Invalid amount"⟩, s)
          else
            some (⟨200, ReplyBody.okTrue⟩,
              { machineState := MachineState.POURING
                lastPourMl := doc.amountOr 0
                pourEndMs := (millis + (100 * doc.amountOr 0).toNat) % 2 ^ 32
                pinPump := true }) := by
  unfold handleDispense
  split
  · rfl
  · cases body with
    | none => rfl
    | some doc =>
      simp only
      split
      · rfl
      · rename_i h
        have hd := durationMs_eq (doc.amountOr 0) (by unfold MAX_DISPENSE_ML at h; omega)
          (by unfold MAX_DISPENSE_ML at h; omega)
        simp only [startPour, hd, pumpOn, Option.bind_eq_bind, Option.some_bind, Option.pure_def]

/-- The member extracted by `doc["amount_ml"] | 0` is positive only when the member is
present and is that value. -/
theorem amountOr_pos (doc : JsonDocument) (h : 0 < doc.amountOr 0) :
    doc.amount_ml = some (doc.amountOr 0) := by
  unfold JsonDocument.amountOr at h ⊢
  cases hv : doc.amount_ml with
  | none => simp [hv] at h
  | some v =>
    simp only [hv] at h ⊢
    split at h
    · rename_i hr
      rw [if_pos hr]
    · omega

theorem amountOr_of_small (doc : JsonDocument) (ml : Int) (hdoc : doc.amount_ml = some ml)
    (h0 : -(2 ^ 31) ≤ ml) (h1 : ml < 2 ^ 31) : doc.amountOr 0 = ml := by
  unfold JsonDocument.amountOr
  rw [hdoc]
  exact if_pos ⟨h0, h1⟩

theorem amountOr_of_large (doc : JsonDocument) (ml : Int) (hdoc : doc.amount_ml = some ml)
    (h : ml < -(2 ^ 31) ∨ 2 ^ 31 ≤ ml) : doc.amountOr 0 = 0 := by
  unfold JsonDocument.amountOr
  have hr : ¬ (-(2 ^ 31) ≤ ml ∧ ml < 2 ^ 31) := by omega
  rw [hdoc]
  exact if_neg hr

theorem handleStatus_eq (s : State) (millis : Nat) (duration : Int) :
    handleStatus s millis duration =
      (readDistanceCm duration).map fun distanceCm =>
        (({ state := if s.machineState = MachineState.POURING then "pouring" else "idle"
            glass_present := decide (distanceCm < GLASS_PRESENT_CM)
            uptime := millis / 1000
            last_pour_ml := s.lastPourMl
            distance_cm := distanceCm } : StatusDoc), s) := by
  unfold handleStatus
  cases readDistanceCm duration <;> rfl

/-- Every operation either leaves the state alone, starts a pour from IDLE with an
accepted volume, or completes the pour in progress. -/
theorem step_cases (s s1 : State) (op : Op) (h : step s op = some s1) :
    s1 = s ∨
    (s.machineState = MachineState.IDLE ∧ ∃ (millis : Nat) (ml : Int), 0 < ml ∧
      ml ≤ MAX_DISPENSE_ML ∧
      s1 = ⟨MachineState.POURING, ml, (millis + (100 * ml).toNat) % 2 ^ 32, true⟩) ∨
    (s.machineState = MachineState.POURING ∧
      s1 = ⟨MachineState.IDLE, s.lastPourMl, s.pourEndMs, false⟩) := by
  cases op with
  | dispense millis body =>
    simp only [step, handleDispense_eq] at h
    split at h
    · simp only [Option.map_some', Option.some.injEq] at h
      exact Or.inl h.symm
    · rename_i hs
      cases body with
      | none =>
        simp only [Option.map_some', Option.some.injEq] at h
        exact Or.inl h.symm
      | some doc =>
        simp only at h
        split at h
        · simp only [Option.map_some', Option.some.injEq] at h
          exact Or.inl h.symm
        · rename_i hamt
          simp only [Option.map_some', Option.some.injEq] at h
          refine Or.inr (Or.inl ⟨?_, millis, doc.amountOr 0, by omega, by omega, h.symm⟩)
          cases hm : s.machineState
          · rfl
          · exact absurd hm hs
  | status millis duration =>
    simp only [step, handleStatus_eq] at h
    cases hr : readDistanceCm duration with
    | none => simp [hr] at h
    | some d =>
      simp only [hr, Option.map_some', Option.some.injEq] at h
      exact Or.inl h.symm
  | tick millis =>
    simp only [step, loop, Option.some.injEq] at h
    split at h
    · rename_i hc
      exact Or.inr (Or.inr ⟨hc.1, h.symm⟩)
    · exact Or.inl h.symm

theorem run_invariant (P : State → Prop)
    (hstep : ∀ (s s1 : State) (op : Op), P s → step s op = some s1 → P s1) :
    ∀ (ops : List Op) (s s1 : State), P s → run s ops = some s1 → P s1 := by
  intro ops
  induction ops with
  | nil =>
    intro s s1 hP h
    simp only [run, Option.some.injEq] at h
    exact h ▸ hP
  | cons op rest ih =>
    intro s s1 hP h
    simp only [run] at h
    cases hs : step s op with
    | none => simp [hs] at h
    | some s2 =>
      simp only [hs, Option.some_bind] at h
      exact ih s2 s1 (hstep s s2 op hP hs) h

theorem pumpMatches_step (s s1 : State) (op : Op) (hP : PumpMatches s)
    (h : step s op = some s1) : PumpMatches s1 := by
  rcases step_cases s s1 op h with rfl | ⟨_, millis, ml, _, _, rfl⟩ | ⟨_, rfl⟩
  · exact hP
  · simp [PumpMatches]
  · simp [PumpMatches]

theorem pumpMatches_boot (pinLevel : Bool) : PumpMatches (setup (powerOn pinLevel)) := by
  simp [PumpMatches, setup, powerOn]

/-- The significand produced by `F32.round_int` has its leading bit at position 23 or is
`2 ^ 24`. -/
theorem round_int_mant_bounds (p L : Nat) (hlo : 2 ^ L ≤ p) (hhi : p < 2 ^ (L + 1)) :
    2 ^ 23 ≤ (if L ≤ 23 then p * 2 ^ (23 - L) else roundNE p (2 ^ (L - 23))) ∧
    (if L ≤ 23 then p * 2 ^ (23 - L) else roundNE p (2 ^ (L - 23))) ≤ 2 ^ 24 := by
  by_cases hL : L ≤ 23
  · simp only [hL, if_true]
    have e1 : 2 ^ L * 2 ^ (23 - L) = 2 ^ 23 := by rw [← pow_add]; congr 1; omega
    have e2 : 2 ^ (L + 1) * 2 ^ (23 - L) = 2 ^ 24 := by rw [← pow_add]; congr 1; omega
    constructor
    · rw [← e1]; exact Nat.mul_le_mul_right _ hlo
    · rw [← e2]; exact Nat.mul_le_mul_right _ (le_of_lt hhi)
  · simp only [hL, if_false]
    have hq : 0 < 2 ^ (L - 23) := Nat.two_pow_pos _
    have e1 : 2 ^ 23 * 2 ^ (L - 23) = 2 ^ L := by rw [← pow_add]; congr 1; omega
    have e2 : 2 ^ 24 * 2 ^ (L - 23) = 2 ^ (L + 1) := by rw [← pow_add]; congr 1; omega
    have g1 := roundNE_ge p (2 ^ (L - 23))
    have g2 := roundNE_le p (2 ^ (L - 23)) hq
    generalize roundNE p (2 ^ (L - 23)) = m at g1 g2 ⊢
    generalize 2 ^ (L - 23) = q at hq e1 e2 g1 g2
    constructor
    · have : 2 ^ 23 ≤ p / q := (Nat.le_div_iff_mul_le hq).2 (by rw [e1]; exact hlo)
      omega
    · by_contra hc
      have hm : 2 ^ 24 + 1 ≤ m := by omega
      have h3 : (2 ^ 24 + 1) * q ≤ m * q := Nat.mul_le_mul_right _ hm
      rw [Nat.add_mul, e2] at h3
      omega

/-- Conversion of any non-zero 32-bit integer to `float` is finite. -/
theorem ofInt_defined (d : Int) (hd : d ≠ 0) (h0 : -(2 ^ 31) ≤ d) (h1 : d < 2 ^ 31) :
    ∃ (a : Nat) (e : Int), F32.ofInt d = some ⟨decide (d < 0), a, e⟩ ∧
      2 ^ 23 ≤ a ∧ a ≤ 2 ^ 24 ∧ -23 ≤ e ∧ e ≤ 8 := by
  have hn0 : d.natAbs ≠ 0 := by omega
  have hn1 : d.natAbs ≤ 2 ^ 31 := by omega
  obtain ⟨hlo, hhi⟩ := floorLog2_spec d.natAbs hn0
  have hL : floorLog2 d.natAbs ≤ 31 := by
    by_contra hc
    have : 2 ^ 32 ≤ 2 ^ floorLog2 d.natAbs := Nat.pow_le_pow_right (by norm_num) (by omega)
    omega
  generalize floorLog2 d.natAbs = L at hlo hhi hL
  have h := F32.round_int (decide (d < 0)) d.natAbs L 0 hlo hhi (by omega) (by omega)
  have hb := round_int_mant_bounds d.natAbs L hlo hhi
  exact ⟨_, _, h, hb.1, hb.2, by omega, by omega⟩

/-- Multiplying a finite value of moderate exponent by `0.034f` is finite. -/
theorem mul_f0_034_defined (neg : Bool) (a : Nat) (e : Int) (ha : 2 ^ 23 ≤ a)
    (ha2 : a ≤ 2 ^ 24) (he : -100 ≤ e) (he2 : e ≤ 100) :
    ∃ (m : Nat) (e2 : Int), F32.mul ⟨neg, a, e⟩ f0_034 = some ⟨neg, m, e2⟩ ∧
      2 ^ 23 ≤ m ∧ m ≤ 2 ^ 24 ∧ e - 5 ≤ e2 ∧ e2 ≤ e - 4 := by
  unfold F32.mul f0_034
  simp only [Bool.bne_false]
  by_cases hP : a * 9126806 < 2 ^ 47
  · have h := F32.round_int neg (a * 9126806) 46 (e + -28) (by omega) (by omega)
      (by push_cast; omega) (by push_cast; omega)
    have hb := round_int_mant_bounds (a * 9126806) 46 (by omega) (by omega)
    exact ⟨_, _, h, hb.1, hb.2, by push_cast; omega, by push_cast; omega⟩
  · have h := F32.round_int neg (a * 9126806) 47 (e + -28) (by omega) (by omega)
      (by push_cast; omega) (by push_cast; omega)
    have hb := round_int_mant_bounds (a * 9126806) 47 (by omega) (by omega)
    exact ⟨_, _, h, hb.1, hb.2, by push_cast; omega, by push_cast; omega⟩

/-- Halving `2 ^ 24 * 2 ^ e`. -/
theorem F32.div_two_top (neg : Bool) (e : Int) (he : -100 ≤ e) (he2 : e ≤ 100) :
    F32.div ⟨neg, 2 ^ 24, e⟩ f2 = some ⟨neg, 2 ^ 23, e⟩ := by
  have hfl : floorLog2 (2 ^ 24) = 24 := by decide
  have h2 : floorLog2 2 = 1 := by decide
  have hc : 2 * 2 ^ 24 ≤ 2 ^ 24 * 2 ^ 1 := by norm_num
  have hmax : max (((24 : Nat) : Int) - ((1 : Nat) : Int) + (e - 0) - 23) (-149) = e := by
    rw [max_eq_left (by push_cast; omega)]; push_cast; ring
  have hsh : e - 0 - e = 0 := by ring
  have hov : ¬ (104 < e) := by omega
  have hov2 : ¬ (e = 104) := by omega
  have hr : roundNE (2 ^ 24) 2 = 2 ^ 23 := by decide
  unfold F32.div F32.round floorLog2Quot f2
  simp only [hfl, h2, hc, if_true, hmax, hsh, hov, hov2, false_and, or_self, if_false,
    Bool.bne_false, OfNat.ofNat_ne_zero, le_refl, Int.toNat_zero, pow_zero, mul_one, hr,
    Nat.pow_eq_zero, false_and]

/-- Dividing a finite value of moderate exponent by `2.0f` is finite. -/
theorem div_two_defined (neg : Bool) (m : Nat) (e : Int) (hm : 2 ^ 23 ≤ m) (hm2 : m ≤ 2 ^ 24)
    (he : -100 ≤ e) (he2 : e ≤ 100) :
    ∃ (m3 : Nat) (e3 : Int), F32.div ⟨neg, m, e⟩ f2 = some ⟨neg, m3, e3⟩ ∧
      m3 ≤ 2 ^ 24 ∧ e3 ≤ e := by
  by_cases htop : m = 2 ^ 24
  · subst htop
    exact ⟨_, _, F32.div_two_top neg e he he2, by norm_num, le_refl e⟩
  · have h := F32.div_two neg m 23 e hm (by omega) (le_refl 23) (by push_cast; omega)
      (by push_cast; omega)
    exact ⟨_, _, h, by omega, by push_cast; omega⟩

/-- A value of magnitude at most `2 ^ 30` converts to `int`. -/
theorem toInt_defined (neg : Bool) (m : Nat) (e : Int) (hm : m ≤ 2 ^ 24) (he : e ≤ 6) :
    ∃ v : Int, F32.toInt ⟨neg, m, e⟩ = some v := by
  have hmag : (if 0 ≤ e then m * 2 ^ e.toNat else m / 2 ^ (-e).toNat) ≤ 2 ^ 30 := by
    split
    · have hk : e.toNat ≤ 6 := by omega
      have h2 : 2 ^ e.toNat ≤ 2 ^ 6 := Nat.pow_le_pow_right (by norm_num) hk
      calc m * 2 ^ e.toNat ≤ 2 ^ 24 * 2 ^ 6 := Nat.mul_le_mul hm h2
        _ = 2 ^ 30 := by norm_num
    · have : m / 2 ^ (-e).toNat ≤ m := Nat.div_le_self _ _
      omega
  unfold F32.toInt F32.trunc
  simp only
  generalize (if 0 ≤ e then m * 2 ^ e.toNat else m / 2 ^ (-e).toNat) = a at hmag
  have hr : -(2 ^ 31) ≤ (if neg = true then -(a : Int) else (a : Int)) ∧
      (if neg = true then -(a : Int) else (a : Int)) < 2 ^ 31 := by
    split <;> constructor <;> omega
  exact ⟨_, if_pos hr⟩

/-- The driver returns a value for every echo duration a 32-bit `long` can hold. -/
theorem readDistanceCm_defined (d : Int) (h0 : -(2 ^ 31) ≤ d) (h1 : d < 2 ^ 31) :
    ∃ v : Int, readDistanceCm d = some v := by
  by_cases hd : d = 0
  · exact ⟨999, by rw [hd]; rfl⟩
  · obtain ⟨a, e, s1, ha, ha2, he, he2⟩ := ofInt_defined d hd h0 h1
    obtain ⟨m, e2, s2, hm, hm2, hl, hu⟩ :=
      mul_f0_034_defined (decide (d < 0)) a e ha ha2 (by omega) (by omega)
    obtain ⟨m3, e3, s3, hm3, he3⟩ :=
      div_two_defined (decide (d < 0)) m e2 hm hm2 (by omega) (by omega)
    obtain ⟨v, s4⟩ := toInt_defined (decide (d < 0)) m3 e3 hm3 (by omega)
    refine ⟨v, ?_⟩
    unfold readDistanceCm
    rw [if_neg hd, s1, Option.bind_eq_bind, Option.some_bind, s2, Option.some_bind, s3,
      Option.some_bind, s4]

/-! ## The claims -/

/-- C1 (counterexample): with `millis() = 4294967295` a request for 1 ml is accepted, the
duration is 100 ms, and `pourEndMs` becomes 99, not `4294967295 + 100`. -/
theorem handleDispense_pourEnd_wraps :
    handleDispense (setup (powerOn false)) 4294967295 (some ⟨some 1⟩) =
      some (⟨200, ReplyBody.okTrue⟩, ⟨MachineState.POURING, 1, 99, true⟩) ∧
    durationMs 1 = some 100 ∧ (4294967295 : Nat) < 2 ^ 32 ∧ (99 : Nat) ≠ 4294967295 + 100 := by
  decide

/-- C1 (amended): for every volume `0 < ml ≤ MAX_DISPENSE_ML` and every time, a request whose
body carries `amount_ml = ml`, made while IDLE, is answered 200 `{ok:true}` and leaves
POURING, `lastPourMl = ml`, the pump on and `pourEndMs = (millis + durationMs) mod 2^32`,
where `durationMs` is exactly `ml / 10 * 1000 = 100 * ml`; the end time is the plain sum
`millis + durationMs` whenever that sum is below `2^32`. -/
theorem handleDispense_accepts (s : State) (millis : Nat) (ml : Int) (doc : JsonDocument)
    (hs : s.machineState = MachineState.IDLE) (h0 : 0 < ml) (h1 : ml ≤ MAX_DISPENSE_ML)
    (hdoc : doc.amount_ml = some ml) :
    durationMs ml = some (100 * ml).toNat ∧
    (((100 * ml).toNat : ℚ) = (ml : ℚ) / 10 * 1000) ∧
    handleDispense s millis (some doc) =
      some (⟨200, ReplyBody.okTrue⟩,
        { machineState := MachineState.POURING
          lastPourMl := ml
          pourEndMs := (millis + (100 * ml).toNat) % 2 ^ 32
          pinPump := true }) ∧
    (millis + (100 * ml).toNat < 2 ^ 32 →
      (millis + (100 * ml).toNat) % 2 ^ 32 = millis + (100 * ml).toNat) := by
  have hM : ml ≤ 60 := h1
  have hamt : doc.amountOr 0 = ml := amountOr_of_small doc ml hdoc (by omega) (by omega)
  refine ⟨durationMs_eq ml h0 hM, ?_, ?_, fun h => Nat.mod_eq_of_lt h⟩
  · have hc : (((100 * ml).toNat : Int) : ℚ) = ((100 * ml : Int) : ℚ) := by
      rw [Int.toNat_of_nonneg (by omega)]
    have hc2 : (((100 * ml).toNat : Int) : ℚ) = ((100 * ml).toNat : ℚ) := by norm_cast
    rw [← hc2, hc]
    push_cast
    ring
  · rw [handleDispense_eq]
    have hnp : ¬ (s.machineState = MachineState.POURING) := by rw [hs]; decide
    have hok : ¬ (ml ≤ 0 ∨ ml > MAX_DISPENSE_ML) := by
      have : ml ≤ MAX_DISPENSE_ML := h1
      omega
    simp only [hnp, if_false, hamt, hok]

/-- C1 (witness): 30 ml requested at time 0 from the boot state runs for 3000 ms. -/
theorem handleDispense_accepts_witness :
    durationMs 30 = some 3000 ∧
    handleDispense (setup (powerOn false)) 0 (some ⟨some 30⟩) =
      some (⟨200, ReplyBody.okTrue⟩, ⟨MachineState.POURING, 30, 3000, true⟩) :=
  have h := handleDispense_accepts (setup (powerOn false)) 0 30 ⟨some 30⟩ rfl (by decide)
    (by decide) rfl
  ⟨h.1, h.2.2.1⟩

/-- C2: in every state reachable from boot the pump output is on exactly when the machine
is POURING, and the same holds again after any further operation. -/
theorem pump_on_iff_pouring (s : State) (h : Reachable s) :
    (s.pinPump = true ↔ s.machineState = MachineState.POURING) ∧
    ∀ (op : Op) (s1 : State), step s op = some s1 →
      (s1.pinPump = true ↔ s1.machineState = MachineState.POURING) := by
  obtain ⟨pinLevel, ops, hrun⟩ := h
  have hP : PumpMatches s :=
    run_invariant PumpMatches pumpMatches_step ops _ s (pumpMatches_boot pinLevel) hrun
  exact ⟨hP, fun op s1 hs => pumpMatches_step s s1 op hP hs⟩

/-- C2 (witness): the state after an accepted 30 ml request is reachable and pouring with
the pump on; one tick at 3000 ms later the pump is off and the machine idle. -/
theorem pump_on_iff_pouring_witness :
    ((⟨MachineState.POURING, 30, 3000, true⟩ : State).pinPump = true ↔
      (⟨MachineState.POURING, 30, 3000, true⟩ : State).machineState = MachineState.POURING) ∧
    ((⟨MachineState.IDLE, 30, 3000, false⟩ : State).pinPump = true ↔
      (⟨MachineState.IDLE, 30, 3000, false⟩ : State).machineState = MachineState.POURING) :=
  have h := pump_on_iff_pouring ⟨MachineState.POURING, 30, 3000, true⟩
    ⟨true, [Op.dispense 0 (some ⟨some 30⟩)], by decide⟩
  ⟨h.1, h.2 (Op.tick 3000) ⟨MachineState.IDLE, 30, 3000, false⟩ (by decide)⟩

/-- C3: a dispense request made while POURING is answered 409 "Already pouring" whatever
its body and the time, and changes nothing; and from any IDLE state, after an accepted
request for 10 ml a second request for 10 ml is answered 409 and `lastPourMl` is still 10. -/
theorem handleDispense_busy (s : State) (millis : Nat) (body : Option JsonDocument)
    (h : s.machineState = MachineState.POURING) :
    handleDispense s millis body = some (⟨409, ReplyBody.error "Already pouring"⟩, s) ∧
    ∀ (s0 : State) (t1 t2 : Nat), s0.machineState = MachineState.IDLE →
      ∃ s1 : State,
        handleDispense s0 t1 (some ⟨some 10⟩) = some (⟨200, ReplyBody.okTrue⟩, s1) ∧
        handleDispense s1 t2 (some ⟨some 10⟩) =
          some (⟨409, ReplyBody.error "Already pouring"⟩, s1) ∧
        s1.lastPourMl = 10 := by
  constructor
  · rw [handleDispense_eq, if_pos h]
  · intro s0 t1 t2 h0
    have hnp : ¬ (s0.machineState = MachineState.POURING) := by rw [h0]; decide
    refine ⟨⟨MachineState.POURING, 10, (t1 + 1000) % 2 ^ 32, true⟩, ?_, ?_, rfl⟩
    · rw [handleDispense_eq, if_neg hnp]
      rfl
    · rw [handleDispense_eq, if_pos rfl]

/-- C3 (witness): the pour started by 10 ml at time 0 rejects a further request at 500 ms. -/
theorem handleDispense_busy_witness :
    handleDispense ⟨MachineState.POURING, 10, 1000, true⟩ 500 (some ⟨some 10⟩) =
      some (⟨409, ReplyBody.error "Already pouring"⟩, ⟨MachineState.POURING, 10, 1000, true⟩) :=
  (handleDispense_busy ⟨MachineState.POURING, 10, 1000, true⟩ 500 (some ⟨some 10⟩) rfl).1

/-- C4 (counterexample): while the 30 ml pour started at time 0 is running, a request for
61 ml is answered 409 "Already pouring", not 400 "Invalid amount". -/
theorem invalid_amount_while_pouring :
    run (setup (powerOn false)) [Op.dispense 0 (some ⟨some 30⟩)] =
      some ⟨MachineState.POURING, 30, 3000, true⟩ ∧
    handleDispense ⟨MachineState.POURING, 30, 3000, true⟩ 100 (some ⟨some 61⟩) =
      some (⟨409, ReplyBody.error "Already pouring"⟩, ⟨MachineState.POURING, 30, 3000, true⟩) ∧
    (⟨409, ReplyBody.error "Already pouring"⟩ : Response) ≠
      ⟨400, ReplyBody.error "Invalid amount"⟩ := by
  decide

/-- C4 (amended): a request carrying `amount_ml = ml` with `ml ≤ 0` or `ml > MAX_DISPENSE_ML`
leaves the controller state unchanged in every machine state; it is answered
400 "Invalid amount" when the machine is IDLE and 409 "Already pouring" when it is POURING. -/
theorem handleDispense_invalid_amount (s : State) (millis : Nat) (ml : Int) (doc : JsonDocument)
    (hdoc : doc.amount_ml = some ml) (hml : ml ≤ 0 ∨ ml > MAX_DISPENSE_ML) :
    handleDispense s millis (some doc) =
      some (if s.machineState = MachineState.IDLE then ⟨400, ReplyBody.error "Invalid amount"⟩
        else ⟨409, ReplyBody.error "Already pouring"⟩, s) := by
  have hamt : doc.amountOr 0 ≤ 0 ∨ doc.amountOr 0 > MAX_DISPENSE_ML := by
    unfold MAX_DISPENSE_ML at hml ⊢
    by_cases hr : -(2 ^ 31) ≤ ml ∧ ml < 2 ^ 31
    · rw [amountOr_of_small doc ml hdoc hr.1 hr.2]
      exact hml
    · rw [amountOr_of_large doc ml hdoc (by omega)]
      exact Or.inl (le_refl 0)
  rw [handleDispense_eq]
  cases hm : s.machineState
  · simp only [reduceCtorEq, if_false, hamt, if_true]
  · simp only [reduceCtorEq, if_false, if_true]

/-- C4 (witness): 61 ml requested from the boot state is answered 400 "Invalid amount". -/
theorem handleDispense_invalid_amount_witness :
    handleDispense (setup (powerOn false)) 0 (some ⟨some 61⟩) =
      some (⟨400, ReplyBody.error "Invalid amount"⟩, setup (powerOn false)) :=
  handleDispense_invalid_amount (setup (powerOn false)) 0 61 ⟨some 61⟩ rfl (by decide)

/-- C5: while POURING a tick before `pourEndMs` changes nothing and a tick at or after
`pourEndMs` sets IDLE and switches the pump off, touching nothing else; while IDLE a tick
changes nothing, so further ticks after the transition have no effect; and a 30 ml pour
started at time 0 is still POURING after a tick at 2999 ms and IDLE with the pump off
after a tick at 3000 ms. -/
theorem loop_tick (s : State) (now : Nat) :
    (s.machineState = MachineState.POURING → now < s.pourEndMs → loop s now = s) ∧
    (s.machineState = MachineState.POURING → now ≥ s.pourEndMs →
      loop s now = ⟨MachineState.IDLE, s.lastPourMl, s.pourEndMs, false⟩) ∧
    (s.machineState = MachineState.IDLE → loop s now = s) ∧
    (s.machineState = MachineState.POURING → now ≥ s.pourEndMs →
      ∀ later : Nat, loop (loop s now) later = loop s now) ∧
    run (setup (powerOn false)) [Op.dispense 0 (some ⟨some 30⟩), Op.tick 2999] =
      some ⟨MachineState.POURING, 30, 3000, true⟩ ∧
    run (setup (powerOn false)) [Op.dispense 0 (some ⟨some 30⟩), Op.tick 2999, Op.tick 3000] =
      some ⟨MachineState.IDLE, 30, 3000, false⟩ := by
  refine ⟨?_, ?_, ?_, ?_, by decide, by decide⟩
  · intro hp hlt
    have hc : ¬ (s.machineState = MachineState.POURING ∧ now ≥ s.pourEndMs) := by omega
    simp only [loop, hc, if_false]
  · intro hp hge
    simp only [loop, hp, hge, and_self, if_true, stopPour, pumpOff]
  · intro hi
    have hc : ¬ (s.machineState = MachineState.POURING ∧ now ≥ s.pourEndMs) := by
      rw [hi]; simp
    simp only [loop, hc, if_false]
  · intro hp hge later
    simp only [loop, hp, hge, and_self, if_true, stopPour, pumpOff, reduceCtorEq, false_and,
      if_false]

/-- C5 (witness): the tick rules at the state of a 30 ml pour started at time 0. -/
theorem loop_tick_witness :
    loop ⟨MachineState.POURING, 30, 3000, true⟩ 2999 = ⟨MachineState.POURING, 30, 3000, true⟩ ∧
    loop ⟨MachineState.POURING, 30, 3000, true⟩ 3000 = ⟨MachineState.IDLE, 30, 3000, false⟩ :=
  ⟨(loop_tick ⟨MachineState.POURING, 30, 3000, true⟩ 2999).1 rfl (by decide),
   (loop_tick ⟨MachineState.POURING, 30, 3000, true⟩ 3000).2.1 rfl (by decide)⟩

/-- The handler always answers; a 200 answer with a started pour occurs exactly under the
acceptance conditions, and an answer other than 200 is 409 or 400 with the state kept. -/
theorem handleDispense_outcomes (s : State) (millis : Nat) (body : Option JsonDocument) :
    (∃ (r : Response) (s1 : State), handleDispense s millis body = some (r, s1)) ∧
    ((∃ s1 : State, handleDispense s millis body = some (⟨200, ReplyBody.okTrue⟩, s1) ∧
        s1.machineState = MachineState.POURING ∧ s1.pinPump = true) ↔
      (s.machineState = MachineState.IDLE ∧
        ∃ (doc : JsonDocument) (ml : Int), body = some doc ∧ doc.amount_ml = some ml ∧
          0 < ml ∧ ml ≤ MAX_DISPENSE_ML)) ∧
    (∀ (r : Response) (s1 : State), handleDispense s millis body = some (r, s1) →
      r.code ≠ 200 → (r.code = 409 ∨ r.code = 400) ∧ s1 = s) := by
  rw [handleDispense_eq]
  cases hm : s.machineState with
  | POURING =>
    simp only [if_true]
    refine ⟨⟨_, _, rfl⟩, ⟨?_, ?_⟩, ?_⟩
    · rintro ⟨s1, h, -⟩
      simp at h
    · rintro ⟨h, -⟩
      simp at h
    · intro r s1 h _
      simp only [Option.some.injEq, Prod.mk.injEq] at h
      obtain ⟨rfl, h2⟩ := h
      exact ⟨Or.inl rfl, h2.symm⟩
  | IDLE =>
    simp only [reduceCtorEq, if_false, true_and]
    cases body with
    | none =>
      refine ⟨⟨_, _, rfl⟩, ⟨?_, ?_⟩, ?_⟩
      · rintro ⟨s1, h, -⟩
        simp at h
      · rintro ⟨doc, ml, h, -⟩
        simp at h
      · intro r s1 h _
        simp only [Option.some.injEq, Prod.mk.injEq] at h
        obtain ⟨rfl, h2⟩ := h
        exact ⟨Or.inr rfl, h2.symm⟩
    | some doc =>
      simp only
      by_cases hamt : doc.amountOr 0 ≤ 0 ∨ doc.amountOr 0 > MAX_DISPENSE_ML
      · simp only [hamt, if_true]
        refine ⟨⟨_, _, rfl⟩, ⟨?_, ?_⟩, ?_⟩
        · rintro ⟨s1, h, -⟩
          simp at h
        · rintro ⟨doc1, ml, h, hd, h0, h1⟩
          simp only [Option.some.injEq] at h
          subst h
          have hM : ml ≤ 60 := h1
          rw [amountOr_of_small doc ml hd (by omega) (by omega)] at hamt
          unfold MAX_DISPENSE_ML at hamt
          omega
        · intro r s1 h _
          simp only [Option.some.injEq, Prod.mk.injEq] at h
          obtain ⟨rfl, h2⟩ := h
          exact ⟨Or.inr rfl, h2.symm⟩
      · simp only [hamt, if_false]
        refine ⟨⟨_, _, rfl⟩, ⟨?_, ?_⟩, ?_⟩
        · intro _
          exact ⟨doc, doc.amountOr 0, rfl, amountOr_pos doc (by omega), by omega, by omega⟩
        · intro _
          exact ⟨_, rfl, rfl, rfl⟩
        · intro r s1 h hne
          simp only [Option.some.injEq, Prod.mk.injEq] at h
          obtain ⟨rfl, -⟩ := h
          exact absurd rfl hne

/-- The two outcomes of `handleDispense`: under the acceptance conditions the answer is 200
and the pour is started; otherwise the answer is 409 or 400 and the state is kept. -/
theorem handleDispense_cases (s : State) (millis : Nat) (body : Option JsonDocument) :
    (∃ (doc : JsonDocument) (ml : Int), s.machineState = MachineState.IDLE ∧
      body = some doc ∧ doc.amount_ml = some ml ∧ 0 < ml ∧ ml ≤ MAX_DISPENSE_ML ∧
      handleDispense s millis body =
        some (⟨200, ReplyBody.okTrue⟩,
          ⟨MachineState.POURING, ml, (millis + (100 * ml).toNat) % 2 ^ 32, true⟩)) ∨
    (¬ (s.machineState = MachineState.IDLE ∧
        ∃ (doc : JsonDocument) (ml : Int), body = some doc ∧ doc.amount_ml = some ml ∧
          0 < ml ∧ ml ≤ MAX_DISPENSE_ML) ∧
      ∃ r : Response, handleDispense s millis body = some (r, s) ∧
        (r.code = 409 ∨ r.code = 400)) := by
  rw [handleDispense_eq]
  cases hm : s.machineState with
  | POURING =>
    refine Or.inr ⟨?_, _, if_pos rfl, Or.inl rfl⟩
    rintro ⟨h, -⟩
    simp at h
  | IDLE =>
    simp only [reduceCtorEq, if_false, true_and]
    cases body with
    | none =>
      refine Or.inr ⟨?_, _, rfl, Or.inr rfl⟩
      rintro ⟨doc, ml, h, -⟩
      simp at h
    | some doc =>
      simp only
      by_cases hamt : doc.amountOr 0 ≤ 0 ∨ doc.amountOr 0 > MAX_DISPENSE_ML
      · refine Or.inr ⟨?_, _, if_pos hamt, Or.inr rfl⟩
        rintro ⟨doc1, ml, h, hd, h0, h1⟩
        simp only [Option.some.injEq] at h
        subst h
        have hM : ml ≤ 60 := h1
        rw [amountOr_of_small doc ml hd (by omega) (by omega)] at hamt
        unfold MAX_DISPENSE_ML at hamt
        omega
      · exact Or.inl ⟨doc, doc.amountOr 0, rfl, amountOr_pos doc (by omega), by omega,
          by omega, if_neg hamt⟩

/-- C6: `handleDispense` always answers. It answers 200, and then with `{ok:true}` and the
pour started (POURING, pump on, `lastPourMl = amount_ml`), exactly when the machine is IDLE,
the body parses and `0 < amount_ml ≤ MAX_DISPENSE_ML`. In every other case the answer is
409 or 400, hence not 200, and the returned state is the state before the call, so
`machineState`, `lastPourMl`, `pourEndMs` and the pump output are exactly as before. -/
theorem dispense_accepted_iff (s : State) (millis : Nat) (body : Option JsonDocument) :
    (∃ (r : Response) (s1 : State), handleDispense s millis body = some (r, s1)) ∧
    ((∃ s1 : State, handleDispense s millis body = some (⟨200, ReplyBody.okTrue⟩, s1) ∧
        s1.machineState = MachineState.POURING ∧ s1.pinPump = true) ↔
      (s.machineState = MachineState.IDLE ∧
        ∃ (doc : JsonDocument) (ml : Int), body = some doc ∧ doc.amount_ml = some ml ∧
          0 < ml ∧ ml ≤ MAX_DISPENSE_ML)) ∧
    (∀ (r : Response) (s1 : State), handleDispense s millis body = some (r, s1) →
      r.code ≠ 200 → (r.code = 409 ∨ r.code = 400) ∧ s1 = s) ∧
    ((∃ (r : Response) (s1 : State), handleDispense s millis body = some (r, s1) ∧
        r.code = 200) ↔
      (s.machineState = MachineState.IDLE ∧
        ∃ (doc : JsonDocument) (ml : Int), body = some doc ∧ doc.amount_ml = some ml ∧
          0 < ml ∧ ml ≤ MAX_DISPENSE_ML)) ∧
    (¬ (s.machineState = MachineState.IDLE ∧
        ∃ (doc : JsonDocument) (ml : Int), body = some doc ∧ doc.amount_ml = some ml ∧
          0 < ml ∧ ml ≤ MAX_DISPENSE_ML) →
      ∃ r : Response, handleDispense s millis body = some (r, s) ∧
        (r.code = 409 ∨ r.code = 400) ∧ r.code ≠ 200) ∧
    (∀ (doc : JsonDocument) (ml : Int), s.machineState = MachineState.IDLE →
      body = some doc → doc.amount_ml = some ml → 0 < ml → ml ≤ MAX_DISPENSE_ML →
      handleDispense s millis body =
        some (⟨200, ReplyBody.okTrue⟩,
          ⟨MachineState.POURING, ml, (millis + (100 * ml).toNat) % 2 ^ 32, true⟩)) := by
  obtain ⟨h1, h2, h3⟩ := handleDispense_outcomes s millis body
  refine ⟨h1, h2, h3, ⟨?_, ?_⟩, ?_, ?_⟩
  · rintro ⟨r, s1, hr, hcode⟩
    rcases handleDispense_cases s millis body with
      ⟨doc, ml, hs, hb, hd, hp, hM, -⟩ | ⟨-, r2, hr2, hc⟩
    · exact ⟨hs, doc, ml, hb, hd, hp, hM⟩
    · rw [hr2] at hr
      simp only [Option.some.injEq, Prod.mk.injEq] at hr
      rw [hr.1] at hc
      omega
  · intro hcond
    rcases handleDispense_cases s millis body with ⟨doc, ml, -, -, -, -, -, hr⟩ | ⟨hn, -⟩
    · exact ⟨_, _, hr, rfl⟩
    · exact absurd hcond hn
  · intro hn
    rcases handleDispense_cases s millis body with
      ⟨doc, ml, hs, hb, hd, hp, hM, -⟩ | ⟨-, r, hr, hc⟩
    · exact absurd ⟨hs, doc, ml, hb, hd, hp, hM⟩ hn
    · exact ⟨r, hr, hc, by omega⟩
  · intro doc ml hs hb hd hp hM
    rcases handleDispense_cases s millis body with
      ⟨doc2, ml2, -, hb2, hd2, -, -, hr⟩ | ⟨hn, -⟩
    · rw [hb, Option.some.injEq] at hb2
      subst hb2
      rw [hd, Option.some.injEq] at hd2
      subst hd2
      exact hr
    · exact absurd ⟨hs, doc, ml, hb, hd, hp, hM⟩ hn

/-- C6 (witness): the three rejections and the acceptance, at concrete inputs. -/
theorem dispense_accepted_iff_witness :
    ∃ s1 : State, handleDispense (setup (powerOn false)) 0 (some ⟨some 60⟩) =
      some (⟨200, ReplyBody.okTrue⟩, s1) ∧ s1.machineState = MachineState.POURING ∧
      s1.pinPump = true :=
  (dispense_accepted_iff (setup (powerOn false)) 0 (some ⟨some 60⟩)).2.1.2
    ⟨rfl, ⟨some 60⟩, 60, rfl, rfl, by decide, by decide⟩

theorem volumeInRange_step (s s1 : State) (op : Op) (hP : VolumeInRange s)
    (h : step s op = some s1) : VolumeInRange s1 := by
  rcases step_cases s s1 op h with rfl | ⟨_, millis, ml, h0, h1, rfl⟩ | ⟨_, rfl⟩
  · exact hP
  · exact ⟨⟨le_of_lt h0, h1⟩, fun _ => h0⟩
  · exact ⟨hP.1, fun hc => by simp at hc⟩

theorem volumeAccepted_step (s s1 : State) (op : Op) (hP : VolumeAccepted s)
    (h : step s op = some s1) : VolumeAccepted s1 := by
  rcases step_cases s s1 op h with rfl | ⟨_, millis, ml, h0, h1, rfl⟩ | ⟨_, rfl⟩
  · exact hP
  · exact ⟨h0, h1⟩
  · exact hP

/-- C7: in every state reachable from boot `0 ≤ lastPourMl ≤ MAX_DISPENSE_ML`; while POURING
`0 < lastPourMl`; and in every state that follows an accepted request (a 200 answer in any
state, followed by any operations) `0 < lastPourMl ≤ MAX_DISPENSE_ML`. -/
theorem lastPourMl_in_range (s : State) (h : Reachable s) :
    (0 ≤ s.lastPourMl ∧ s.lastPourMl ≤ MAX_DISPENSE_ML) ∧
    (s.machineState = MachineState.POURING →
      0 < s.lastPourMl ∧ s.lastPourMl ≤ MAX_DISPENSE_ML) ∧
    (∀ (s1 s2 : State) (millis : Nat) (body : Option JsonDocument) (later : List Op),
      handleDispense s1 millis body = some (⟨200, ReplyBody.okTrue⟩, s2) →
      run s2 later = some s → 0 < s.lastPourMl ∧ s.lastPourMl ≤ MAX_DISPENSE_ML) := by
  obtain ⟨pinLevel, ops, hrun⟩ := h
  have hboot : VolumeInRange (setup (powerOn pinLevel)) := by
    simp [VolumeInRange, setup, powerOn, MAX_DISPENSE_ML]
  have hP : VolumeInRange s := run_invariant VolumeInRange volumeInRange_step ops _ s hboot hrun
  refine ⟨hP.1, fun hp => ⟨hP.2 hp, hP.1.2⟩, ?_⟩
  intro s1 s2 millis body later hacc hlater
  have hstep : step s1 (Op.dispense millis body) = some s2 := by
    simp only [step, hacc, Option.map_some']
  have h2 : VolumeAccepted s2 := by
    rcases step_cases s1 s2 _ hstep with rfl | ⟨_, t, ml, h0, h1, rfl⟩ | ⟨hp, _⟩
    · rw [handleDispense_eq] at hacc
      split at hacc
      · simp at hacc
      · cases body with
        | none => simp at hacc
        | some doc =>
          simp only at hacc
          split at hacc
          · simp at hacc
          · rename_i hamt
            simp only [Option.some.injEq, Prod.mk.injEq, true_and] at hacc
            rw [← hacc]
            exact ⟨by show 0 < doc.amountOr 0; omega, by show doc.amountOr 0 ≤ _; omega⟩
    · exact ⟨h0, h1⟩
    · rw [handleDispense_eq, if_pos hp] at hacc
      simp at hacc
  exact run_invariant VolumeAccepted volumeAccepted_step later s2 s h2 hlater

/-- C7 (witness): after 30 ml was accepted and completed, the recorded volume is 30. -/
theorem lastPourMl_in_range_witness :
    (0 ≤ (⟨MachineState.IDLE, 30, 3000, false⟩ : State).lastPourMl ∧
      (⟨MachineState.IDLE, 30, 3000, false⟩ : State).lastPourMl ≤ MAX_DISPENSE_ML) ∧
    (0 < (⟨MachineState.IDLE, 30, 3000, false⟩ : State).lastPourMl ∧
      (⟨MachineState.IDLE, 30, 3000, false⟩ : State).lastPourMl ≤ MAX_DISPENSE_ML) :=
  have h := lastPourMl_in_range ⟨MachineState.IDLE, 30, 3000, false⟩
    ⟨false, [Op.dispense 0 (some ⟨some 30⟩), Op.status 10 200, Op.tick 3000], by decide⟩
  ⟨h.1, h.2.2 (setup (powerOn false)) ⟨MachineState.POURING, 30, 3000, true⟩ 0
    (some ⟨some 30⟩) [Op.status 10 200, Op.tick 3000] (by decide) (by decide)⟩

/-- The real-number value `⌊d * 0.034 / 2⌋` in integer arithmetic. -/
theorem floor_scaled (d : Int) : ⌊(d : ℚ) * 0.034 / 2⌋ = 17 * d / 1000 := by
  have h : (d : ℚ) * 0.034 / 2 = ((17 * d : ℤ) : ℚ) / ((1000 : ℕ) : ℚ) := by
    push_cast
    norm_num
    ring
  rw [h, Rat.floor_intCast_div_natCast]
  norm_num

/-- C8: the presence decision of `readGlassPresent` and the `glass_present` field of
`handleStatus` are the comparison `distance < 4` applied to the distance read in that very
call, whatever the controller state; they are defined for every echo duration a 32-bit
`long` holds; and 3 cm is present while 4 cm, 5 cm and the no-echo sentinel 999 are not. -/
theorem glass_present_threshold (duration : Int) :
    GLASS_PRESENT_CM = 4 ∧
    readGlassPresent duration = (readDistanceCm duration).map (fun d => decide (d < 4)) ∧
    (∀ (s : State) (millis : Nat),
      (handleStatus s millis duration).map (fun r => (r.1.distance_cm, r.1.glass_present)) =
        (readDistanceCm duration).map (fun d => (d, decide (d < 4)))) ∧
    (-(2 ^ 31) ≤ duration → duration < 2 ^ 31 → ∃ d : Int, readDistanceCm duration = some d ∧
      readGlassPresent duration = some (decide (d < 4))) ∧
    (readDistanceCm 200 = some 3 ∧ readGlassPresent 200 = some true) ∧
    (readDistanceCm 250 = some 4 ∧ readGlassPresent 250 = some false) ∧
    (readDistanceCm 300 = some 5 ∧ readGlassPresent 300 = some false) ∧
    (readDistanceCm 0 = some 999 ∧ readGlassPresent 0 = some false) := by
  have hg : readGlassPresent duration =
      (readDistanceCm duration).map (fun d => decide (d < 4)) := by
    unfold readGlassPresent
    cases readDistanceCm duration <;> rfl
  refine ⟨rfl, hg, ?_, ?_, by decide, by decide, by decide, by decide⟩
  · intro s millis
    rw [handleStatus_eq]
    cases readDistanceCm duration <;> rfl
  · intro h0 h1
    obtain ⟨d, hd⟩ := readDistanceCm_defined duration h0 h1
    refine ⟨d, hd, ?_⟩
    rw [hg, hd]
    rfl

/-- C8 (witness): an echo of 235 microseconds is 3 cm, hence a glass is present. -/
theorem glass_present_threshold_witness :
    ∃ d : Int, readDistanceCm 235 = some d ∧ readGlassPresent 235 = some (decide (d < 4)) :=
  (glass_present_threshold 235).2.2.2.1 (by decide) (by decide)

/-- C9: `handleStatus` never changes the controller state; its document says "pouring"
exactly when the machine is POURING and "idle" otherwise, and carries the current
`lastPourMl`; it answers for every echo duration a 32-bit `long` holds; and during a
30 ml pour it reports "pouring" and 30. -/
theorem handleStatus_readonly (s : State) (millis : Nat) (duration : Int) :
    (∀ (doc : StatusDoc) (s1 : State), handleStatus s millis duration = some (doc, s1) →
      s1 = s ∧ (doc.state = "pouring" ↔ s.machineState = MachineState.POURING) ∧
      (doc.state = "idle" ↔ s.machineState ≠ MachineState.POURING) ∧
      doc.last_pour_ml = s.lastPourMl) ∧
    (-(2 ^ 31) ≤ duration → duration < 2 ^ 31 →
      ∃ doc : StatusDoc, handleStatus s millis duration = some (doc, s)) ∧
    handleStatus ⟨MachineState.POURING, 30, 3000, true⟩ 1500 200 =
      some (⟨"pouring", true, 1, 30, 3⟩, ⟨MachineState.POURING, 30, 3000, true⟩) := by
  refine ⟨?_, ?_, by decide⟩
  · intro doc s1 h
    rw [handleStatus_eq] at h
    cases hr : readDistanceCm duration with
    | none => simp [hr] at h
    | some d =>
      simp only [hr, Option.map_some', Option.some.injEq, Prod.mk.injEq] at h
      obtain ⟨rfl, rfl⟩ := h
      refine ⟨rfl, ?_, ?_, rfl⟩
      · cases hm : s.machineState <;> simp [hm]
      · cases hm : s.machineState <;> simp [hm]
  · intro h0 h1
    obtain ⟨d, hd⟩ := readDistanceCm_defined duration h0 h1
    rw [handleStatus_eq, hd]
    exact ⟨_, rfl⟩

/-- C9 (witness): a status query in the boot state answers "idle" and changes nothing. -/
theorem handleStatus_readonly_witness :
    ∃ doc : StatusDoc, handleStatus (setup (powerOn false)) 0 0 =
      some (doc, setup (powerOn false)) :=
  (handleStatus_readonly (setup (powerOn false)) 0 0).2.1 (by decide) (by decide)

/-- C10: `readDistanceCm` returns 999 when the echo measurement is 0; for every echo
duration `0 < d ≤ 30000` it returns the truncation of `d * 0.034 / 2`, which lies between 0
and 510; hence on `0 ≤ d ≤ 30000` the sentinel 999 is returned exactly when `d = 0`. -/
theorem readDistanceCm_sentinel :
    readDistanceCm 0 = some 999 ∧
    (∀ d : Int, 0 < d → d ≤ 30000 →
      readDistanceCm d = some ⌊(d : ℚ) * 0.034 / 2⌋ ∧
      0 ≤ ⌊(d : ℚ) * 0.034 / 2⌋ ∧ ⌊(d : ℚ) * 0.034 / 2⌋ ≤ 510) ∧
    (∀ d : Int, 0 ≤ d → d ≤ 30000 → (readDistanceCm d = some 999 ↔ d = 0)) ∧
    readDistanceCm 30000 = some 510 := by
  refine ⟨rfl, ?_, ?_, by decide⟩
  · intro d h0 h1
    rw [floor_scaled, readDistanceCm_range d (le_of_lt h0) h1, if_neg (by omega)]
    exact ⟨rfl, by omega, by omega⟩
  · intro d h0 h1
    rw [readDistanceCm_range d h0 h1]
    constructor
    · intro h
      by_contra hd
      rw [if_neg hd] at h
      simp only [Option.some.injEq] at h
      omega
    · intro h
      rw [if_pos h]

/-- C10 (witness): an echo of 1000 microseconds reads 17 cm. -/
theorem readDistanceCm_sentinel_witness :
    readDistanceCm 1000 = some ⌊((1000 : Int) : ℚ) * 0.034 / 2⌋ :=
  (readDistanceCm_sentinel.2.1 1000 (by decide) (by decide)).1

/-- An operation that is not an accepted request keeps `lastPourMl` and `pourEndMs`. -/
theorem step_keeps_pour_record (s s1 : State) (op : Op) (hno : accepts s op = false)
    (h : step s op = some s1) :
    s1.lastPourMl = s.lastPourMl ∧ s1.pourEndMs = s.pourEndMs := by
  cases op with
  | dispense millis body =>
    simp only [accepts, handleDispense_eq] at hno
    simp only [step, handleDispense_eq] at h
    split at h
    · simp only [Option.map_some', Option.some.injEq] at h
      rw [← h]
      exact ⟨rfl, rfl⟩
    · rename_i hs
      cases body with
      | none =>
        simp only [Option.map_some', Option.some.injEq] at h
        rw [← h]
        exact ⟨rfl, rfl⟩
      | some doc =>
        simp only at h
        split at h
        · simp only [Option.map_some', Option.some.injEq] at h
          rw [← h]
          exact ⟨rfl, rfl⟩
        · rename_i hamt
          simp [hs, hamt] at hno
  | status millis duration =>
    simp only [step, handleStatus_eq] at h
    cases hr : readDistanceCm duration with
    | none => simp [hr] at h
    | some d =>
      simp only [hr, Option.map_some', Option.some.injEq] at h
      rw [← h]
      exact ⟨rfl, rfl⟩
  | tick millis =>
    simp only [step, loop, Option.some.injEq] at h
    split at h
    · rw [← h]
      exact ⟨rfl, rfl⟩
    · rw [← h]
      exact ⟨rfl, rfl⟩

/-- A run without an accepted request keeps `lastPourMl` and `pourEndMs`. -/
theorem run_keeps_pour_record (ops : List Op) :
    ∀ (s s2 : State), noneAccepted s ops = true → run s ops = some s2 →
      s2.lastPourMl = s.lastPourMl ∧ s2.pourEndMs = s.pourEndMs := by
  induction ops with
  | nil =>
    intro s s2 _ h
    simp only [run, Option.some.injEq] at h
    rw [← h]
    exact ⟨rfl, rfl⟩
  | cons op rest ih =>
    intro s s2 hno h
    simp only [run] at h
    cases hs : step s op with
    | none => simp [hs] at h
    | some s1 =>
      simp only [hs, Option.some_bind] at h
      simp only [noneAccepted, hs, Bool.and_eq_true, Bool.not_eq_true'] at hno
      have h1 := step_keeps_pour_record s s1 op hno.1 hs
      have h2 := ih s1 s2 hno.2 h
      exact ⟨h2.1.trans h1.1, h2.2.trans h1.2⟩

/-- C11: `stopPour`, and hence a completing tick, changes only `machineState` (to IDLE) and
the pump output (to off); every tick leaves `lastPourMl` and `pourEndMs` as they were; and
after a request for `ml` was accepted, `lastPourMl` is `ml` after any sequence of
operations in which no further request is accepted, the completing tick included. -/
theorem lastPourMl_retained (s : State) (millis : Nat) :
    stopPour s = ⟨MachineState.IDLE, s.lastPourMl, s.pourEndMs, false⟩ ∧
    ((loop s millis).lastPourMl = s.lastPourMl ∧ (loop s millis).pourEndMs = s.pourEndMs) ∧
    (s.machineState = MachineState.POURING → millis ≥ s.pourEndMs →
      loop s millis = ⟨MachineState.IDLE, s.lastPourMl, s.pourEndMs, false⟩) ∧
    (∀ (ml : Int) (doc : JsonDocument) (s1 s2 : State) (ops : List Op),
      doc.amount_ml = some ml →
      handleDispense s millis (some doc) = some (⟨200, ReplyBody.okTrue⟩, s1) →
      noneAccepted s1 ops = true → run s1 ops = some s2 →
      s1.lastPourMl = ml ∧ s2.lastPourMl = ml) := by
  refine ⟨rfl, ?_, ?_, ?_⟩
  · unfold loop
    split
    · exact ⟨rfl, rfl⟩
    · exact ⟨rfl, rfl⟩
  · intro hp hge
    simp only [loop, hp, hge, and_self, if_true, stopPour, pumpOff]
  · intro ml doc s1 s2 ops hdoc hacc hno hrun
    have h1 : s1.lastPourMl = ml := by
      rw [handleDispense_eq] at hacc
      split at hacc
      · simp at hacc
      · simp only at hacc
        split at hacc
        · simp at hacc
        · rename_i hamt
          simp only [Option.some.injEq, Prod.mk.injEq, true_and] at hacc
          have hpos : 0 < doc.amountOr 0 := by omega
          have hm := amountOr_pos doc hpos
          rw [hdoc, Option.some.injEq] at hm
          rw [← hacc]
          exact hm.symm
    exact ⟨h1, (run_keeps_pour_record ops s1 s2 hno hrun).1.trans h1⟩

/-- C11 (witness): 30 ml accepted at time 0, then a tick at 2999 ms, the completing tick at
3000 ms, a status query, a request rejected with 400 and a later tick: the volume is 30. -/
theorem lastPourMl_retained_witness :
    (⟨MachineState.POURING, 30, 3000, true⟩ : State).lastPourMl = 30 ∧
    (⟨MachineState.IDLE, 30, 3000, false⟩ : State).lastPourMl = 30 :=
  (lastPourMl_retained (setup (powerOn false)) 0).2.2.2 30 ⟨some 30⟩
    ⟨MachineState.POURING, 30, 3000, true⟩ ⟨MachineState.IDLE, 30, 3000, false⟩
    [Op.tick 2999, Op.tick 3000, Op.status 3500 200, Op.dispense 4000 (some ⟨some 61⟩),
      Op.tick 5000]
    rfl (by decide) (by decide) (by decide)

/-- While the sum `millis + durationMs` stays below `2 ^ 32`, a pour accepted at `millis` is
still running, pump on, after a tick at any `t` with `millis ≤ t` and `t - millis` smaller
than the duration. -/
theorem pour_runs_full_duration_without_wrap (s : State) (millis t : Nat) (ml : Int)
    (doc : JsonDocument) (hs : s.machineState = MachineState.IDLE) (h0 : 0 < ml)
    (h1 : ml ≤ MAX_DISPENSE_ML) (hdoc : doc.amount_ml = some ml)
    (hfit : millis + (100 * ml).toNat < 2 ^ 32) (_ht : millis ≤ t)
    (hlt : t - millis < (100 * ml).toNat) :
    ∃ s1 : State, handleDispense s millis (some doc) = some (⟨200, ReplyBody.okTrue⟩, s1) ∧
      loop s1 t = s1 ∧ s1.machineState = MachineState.POURING ∧ s1.pinPump = true := by
  have hM : ml ≤ 60 := h1
  have hamt : doc.amountOr 0 = ml := amountOr_of_small doc ml hdoc (by omega) (by omega)
  have hnp : ¬ (s.machineState = MachineState.POURING) := by rw [hs]; decide
  have hok : ¬ (ml ≤ 0 ∨ ml > MAX_DISPENSE_ML) := by
    have : ml ≤ MAX_DISPENSE_ML := h1
    omega
  refine ⟨⟨MachineState.POURING, ml, (millis + (100 * ml).toNat) % 2 ^ 32, true⟩, ?_, ?_,
    rfl, rfl⟩
  · rw [handleDispense_eq]
    simp only [hnp, if_false, hamt, hok]
  · have hend : (millis + (100 * ml).toNat) % 2 ^ 32 = millis + (100 * ml).toNat :=
      Nat.mod_eq_of_lt hfit
    have hc : ¬ (t ≥ (millis + (100 * ml).toNat) % 2 ^ 32) := by
      rw [hend]
      omega
    simp only [loop, hc, and_false, if_false]

/-- C12 (failing input): 30 ml requested at `millis() = 4294966296` is accepted with a
duration of 3000 ms, the 32-bit sum stored in `pourEndMs` is 2000, and the tick one
millisecond later, at 4294966297, already stops the pour and switches the pump off. -/
theorem pour_cut_short_at_wrap :
    (4294966296 : Nat) < 2 ^ 32 ∧ (4294966297 : Nat) < 2 ^ 32 ∧
    durationMs 30 = some 3000 ∧
    handleDispense (setup (powerOn false)) 4294966296 (some ⟨some 30⟩) =
      some (⟨200, ReplyBody.okTrue⟩, ⟨MachineState.POURING, 30, 2000, true⟩) ∧
    ((4294966296 : Nat) ≤ 4294966297 ∧ (4294966297 : Nat) - 4294966296 < 3000) ∧
    loop ⟨MachineState.POURING, 30, 2000, true⟩ 4294966297 =
      ⟨MachineState.IDLE, 30, 2000, false⟩ := by
  decide

/-- C13: while IDLE, a body that parses but has no integer `amount_ml` member yields the
amount 0 and is answered 400 "Invalid amount", which is not the "Invalid JSON" answer, with
the state unchanged; and whenever the answer is 400 "Invalid JSON", parsing failed (and the
machine was IDLE and the state is unchanged), which in turn always gives that answer
while IDLE. -/
theorem missing_amount_is_invalid_amount (s : State) (millis : Nat) (doc : JsonDocument)
    (hs : s.machineState = MachineState.IDLE) (hdoc : doc.amount_ml = none) :
    doc.amountOr 0 = 0 ∧
    handleDispense s millis (some doc) = some (⟨400, ReplyBody.error "Invalid amount"⟩, s) ∧
    (⟨400, ReplyBody.error "Invalid amount"⟩ : Response) ≠
      ⟨400, ReplyBody.error "Invalid JSON"⟩ ∧
    (∀ (s0 s1 : State) (t : Nat) (body : Option JsonDocument),
      handleDispense s0 t body = some (⟨400, ReplyBody.error "Invalid JSON"⟩, s1) →
      body = none ∧ s0.machineState = MachineState.IDLE ∧ s1 = s0) ∧
    handleDispense s millis none = some (⟨400, ReplyBody.error "Invalid JSON"⟩, s) := by
  have hamt : doc.amountOr 0 = 0 := by
    unfold JsonDocument.amountOr
    rw [hdoc]
  have hnp : ¬ (s.machineState = MachineState.POURING) := by rw [hs]; decide
  refine ⟨hamt, ?_, by decide, ?_, ?_⟩
  · rw [handleDispense_eq]
    simp only [hnp, if_false, hamt, le_refl, true_or, if_true]
  · intro s0 s1 t body h
    rw [handleDispense_eq] at h
    split at h
    · simp at h
    · rename_i hs0
      have hidle : s0.machineState = MachineState.IDLE := by
        cases hm : s0.machineState
        · rfl
        · exact absurd hm hs0
      cases body with
      | none =>
        simp only [Option.some.injEq, Prod.mk.injEq, true_and] at h
        exact ⟨rfl, hidle, h.symm⟩
      | some d =>
        simp only at h
        split at h
        · simp at h
        · simp at h
  · rw [handleDispense_eq]
    simp only [hnp, if_false]

/-- C13 (witness): an empty JSON object sent to the boot state is answered
400 "Invalid amount". -/
theorem missing_amount_is_invalid_amount_witness :
    handleDispense (setup (powerOn false)) 0 (some ⟨none⟩) =
      some (⟨400, ReplyBody.error "Invalid amount"⟩, setup (powerOn false)) :=
  (missing_amount_is_invalid_amount (setup (powerOn false)) 0 ⟨none⟩ rfl rfl).2.1

end Chuggernog
